import Mathlib

/-!
Shallow embedding of the MapReduce sorting / max-value-aggregation repository.

Source files embedded:
  * src/utils/helpers.py        (split_into_chunks, is_sorted)
  * src/main.py                 (chunks_of, map_sort_chunk, reduce_merge_sorted,
                                 sort_threads, sort_processes, max_threads, max_processes)
  * src/mapreduce_sort/map_sort_threaded.py, map_sort_process.py
  * src/max_value_aggregation/max_threaded.py, max_process.py

Modelling decisions (stated once here, referenced in the doc comments below):
  * Python ints are ℤ.  `float('-inf')` used as a max-accumulator sentinel is the
    bottom element of `WithBot ℤ`; every integer coerces strictly above it.
  * Each concurrent executor joins all workers before its result is read, and
    every shared-accumulator update happens under a mutex, so the final state is
    the fold of the per-chunk contributions in some order; the compare-and-update
    operation is commutative/associative (it is `max`), so the fold in chunk
    order is a faithful model of every interleaving (order-insensitivity is
    itself proved below, see `reduce_order_insensitive`).
  * A worker that raises an uncaught exception (Python `max([])` raises
    ValueError; a thread/process dies, the parent joins it regardless) makes no
    contribution to the accumulator; this is modelled by the `if ch = []` guard
    in the corresponding step function.
  * `multiprocessing.Value('i', _)` is a C int: assignment stores the Python int
    truncated to 32 signed bits (ctypes does no overflow checking); reading
    yields that truncated value.  Modelled by `wrap32`.
  * `heapq.merge` is a k-way merge of sorted iterables; it is embedded as the
    iterated binary merge `merge2`, which agrees with the k-way merge on sorted
    inputs (on sorted inputs both produce the unique sorted permutation of the
    concatenation, proved below).
  * Python `sorted` / `list.sort` produce the ascending stable permutation; on
    integer lists the sorted permutation is unique as a list, so
    `List.insertionSort (· ≤ ·)` is extensionally the same function.
-/

namespace MapReduce

/-- Python error conditions arising in the embedded fragments. -/
inductive PyErr
  | zeroDivisionError
  | valueError
deriving DecidableEq, Repr

/-- Python `max` on a nonempty list: fold of binary max from the head.
On `[]` Python raises ValueError; every call site below guards emptiness
exactly where the source does (or models the worker's death when it does not),
so the `[]` branch value is never observed. -/
def maxZ : List ℤ → ℤ
  | [] => 0
  | x :: xs => xs.foldl max x

/-- Maximum of a list as a `WithBot ℤ`: the fold of `max` starting from the
`float('-inf')` sentinel (⊥), as in `max_threads` of src/main.py. -/
def pyMax (l : List ℤ) : WithBot ℤ := l.foldl (fun (a : WithBot ℤ) (x : ℤ) => max a ↑x) ⊥

/-- The chunk sizes produced by the partition loop: for `i` in `range(k)`,
size `base + (1 if i < rem else 0)` with `base = n // k`, `rem = n % k`
(src/utils/helpers.py lines 3-13 and src/main.py `chunks_of`). -/
def chunkSizes (n k : ℕ) : List ℕ :=
  (List.range k).map fun i => n / k + (if i < n % k then 1 else 0)

/-- Consecutive slicing `data[start:end]` with running `start`: each chunk takes
its size off the front of what is left. -/
def splitSizes : List ℤ → List ℕ → List (List ℤ)
  | _, [] => []
  | l, sz :: rest => l.take sz :: splitSizes (l.drop sz) rest

/-- `split_into_chunks(data, num_chunks)` of src/utils/helpers.py for
`num_chunks ≥ 1` (the `num_chunks < 1` behaviour is `split_into_chunksZ`). -/
def split_into_chunks (data : List ℤ) (num_chunks : ℕ) : List (List ℤ) :=
  splitSizes data (chunkSizes data.length num_chunks)

/-- `chunks_of(data, k)` of src/main.py (generator, always consumed by `list`):
identical partition loop to `split_into_chunks`. -/
def chunks_of (data : List ℤ) (k : ℕ) : List (List ℤ) :=
  splitSizes data (chunkSizes data.length k)

/-- `split_into_chunks` over all integer `num_chunks`, capturing the Python
behaviour outside `k ≥ 1`: `k = 0` raises ZeroDivisionError at `n // k`;
`k < 0` runs `for i in range(k)` zero times and returns `[]` (and
`Int.toNat` of a negative `k` is `0`, making `chunkSizes _ 0 = []`). -/
def split_into_chunksZ (data : List ℤ) (k : ℤ) : Except PyErr (List (List ℤ)) :=
  if k = 0 then .error .zeroDivisionError
  else .ok (split_into_chunks data k.toNat)

/-- Python `sorted` / `list.sort` on an integer list (ascending). -/
def pySort (l : List ℤ) : List ℤ := l.insertionSort (· ≤ ·)

/-- `map_sort_chunk` of src/main.py: sort the chunk, return it. -/
def map_sort_chunk (c : List ℤ) : List ℤ := pySort c

/-- Binary merge of two ascending lists (building block for `heapq.merge`). -/
def merge2 : List ℤ → List ℤ → List ℤ
  | [], ys => ys
  | xs, [] => xs
  | x :: xs, y :: ys =>
      if x ≤ y then x :: merge2 xs (y :: ys) else y :: merge2 (x :: xs) ys
termination_by xs ys => xs.length + ys.length

/-- `reduce_merge_sorted` of src/main.py: `heapq.merge(*chunks)`, a k-way merge
of sorted lists, embedded as the iterated binary merge. -/
def reduce_merge_sorted (chunks : List (List ℤ)) : List ℤ :=
  chunks.foldr merge2 []

/-- `sort_threads` of src/main.py (result component): each thread writes the
sorted chunk into its own slot `sorted_chunks[i]`, the slots are merged after
the join barrier. -/
def sort_threads (data : List ℤ) (workers : ℕ) : List ℤ :=
  reduce_merge_sorted ((chunks_of data workers).map map_sort_chunk)

/-- `sort_processes` of src/main.py (result component): `pool.map` collects the
sorted chunks in segment order, then they are merged. -/
def sort_processes (data : List ℤ) (workers : ℕ) : List ℤ :=
  reduce_merge_sorted ((chunks_of data workers).map map_sort_chunk)

/-- `map_sort_threaded` of src/mapreduce_sort/map_sort_threaded.py (result
component): the list of independently sorted chunks, in segment order. -/
def map_sort_threaded (data : List ℤ) (workers : ℕ) : List (List ℤ) :=
  (split_into_chunks data workers).map pySort

/-- `map_sort_process` of src/mapreduce_sort/map_sort_process.py (result
component): `pool.map(_worker_sort, chunks)` preserves segment order. -/
def map_sort_process (data : List ℤ) (workers : ℕ) : List (List ℤ) :=
  (split_into_chunks data workers).map pySort

/-- One `thread_worker` contribution of `max_threads` (src/main.py lines
89-93): `local_max = max(ch) if ch else float('-inf')`, then under the lock
`if local_max > shared: shared = local_max`. -/
def max_threads_step (acc : WithBot ℤ) (ch : List ℤ) : WithBot ℤ :=
  let localMax : WithBot ℤ := if ch = [] then ⊥ else ↑(maxZ ch)
  if localMax > acc then localMax else acc

/-- `max_threads` of src/main.py (result component): accumulator starts at
`float('-inf')`; after the join barrier it is the fold of the per-chunk
compare-and-updates. -/
def max_threads (data : List ℤ) (workers : ℕ) : WithBot ℤ :=
  (chunks_of data workers).foldl max_threads_step ⊥

/-- Truncation of a Python int stored into a ctypes 64-bit signed long
(`multiprocessing.Value('l', _)`): value modulo 2^64, shifted into
[-2^63, 2^63). -/
def wrap64 (x : ℤ) : ℤ := (x + 2 ^ 63) % 2 ^ 64 - 2 ^ 63

/-- One `process_worker_update` contribution of `max_processes` (src/main.py):
`local_max = max(ch) if ch else -10**18`; under the lock,
`if local_max > shared_value.value: shared_value.value = int(local_max)` —
the store truncates to a signed 64-bit long. -/
def max_processes_step (acc : ℤ) (ch : List ℤ) : ℤ :=
  let localMax : ℤ := if ch = [] then -10 ^ 18 else maxZ ch
  if localMax > acc then wrap64 localMax else acc

/-- `max_processes` of src/main.py (result component): shared
`Value('l', -10**18)`, compare-and-update under the lock by every process. -/
def max_processes (data : List ℤ) (workers : ℕ) : ℤ :=
  (chunks_of data workers).foldl max_processes_step (-10 ^ 18)

/-- One `worker` contribution of `max_threaded`
(src/max_value_aggregation/max_threaded.py lines 9-13): `local_max = max(chunk)`
raises ValueError on an empty chunk — the thread dies without touching the
accumulator (the join still succeeds); otherwise compare-and-update under the
lock. -/
def max_threaded_step (acc : WithBot ℤ) (ch : List ℤ) : WithBot ℤ :=
  if ch = [] then acc
  else if (↑(maxZ ch) : WithBot ℤ) > acc then ↑(maxZ ch) else acc

/-- `max_threaded` of src/max_value_aggregation/max_threaded.py (result
component): accumulator `{"val": float('-inf')}`, compare-and-update by each
surviving worker. -/
def max_threaded (data : List ℤ) (workers : ℕ) : WithBot ℤ :=
  (split_into_chunks data workers).foldl max_threaded_step ⊥

/-- Initial value of the shared accumulator of `max_process`
(src/max_value_aggregation/max_process.py line 13): `mp.Value('i', -99999999)`. -/
def max_process_init : ℤ := -99999999

/-- Truncation of a Python int stored into a ctypes 32-bit signed int
(`Value('i', _)`): ctypes does no overflow checking, the store keeps the value
modulo 2^32, shifted into [-2^31, 2^31). -/
def wrap32 (x : ℤ) : ℤ := (x + 2 ^ 31) % 2 ^ 32 - 2 ^ 31

/-- One `_proc_worker` contribution of `max_process`
(src/max_value_aggregation/max_process.py lines 5-9): `max(chunk)` raises
ValueError on an empty chunk — the child process dies without updating;
otherwise, under the lock, `if local_max > shared_val.value:
shared_val.value = local_max`, the store truncating to a signed 32-bit int. -/
def max_process_step (acc : ℤ) (ch : List ℤ) : ℤ :=
  if ch = [] then acc
  else if maxZ ch > acc then wrap32 (maxZ ch) else acc

/-- `max_process` of src/max_value_aggregation/max_process.py (result
component): shared `Value('i', -99999999)`, compare-and-update under the lock
by every surviving child process. -/
def max_process (data : List ℤ) (workers : ℕ) : ℤ :=
  (split_into_chunks data workers).foldl max_process_step max_process_init

/-- `is_sorted` of src/utils/helpers.py: all adjacent pairs are `≤`. -/
def is_sorted (arr : List ℤ) : Bool :=
  List.all (List.range (arr.length - 1)) fun i =>
    decide (arr.getD i 0 ≤ arr.getD (i + 1) 0)

/-- A Python int fits in a ctypes signed 32-bit int without truncation. -/
def fits32 (x : ℤ) : Prop := -(2 ^ 31) ≤ x ∧ x < 2 ^ 31

instance : DecidablePred fits32 := fun x => by unfold fits32; infer_instance

/-- A Python int fits in a ctypes signed 64-bit long without truncation. -/
def fits64 (x : ℤ) : Prop := -(2 ^ 63) ≤ x ∧ x < 2 ^ 63

instance : DecidablePred fits64 := fun x => by unfold fits64; infer_instance

/-- The max-workload reduction applied to a list of already-computed per-worker
results: each result is compared-and-updated into the accumulator exactly as in
`thread_worker` of src/main.py lines 89-93 (`if local_max > shared: shared =
local_max`), in the given order. -/
def reduce_max (init : WithBot ℤ) (results : List (WithBot ℤ)) : WithBot ℤ :=
  results.foldl (fun acc r => if r > acc then r else acc) init

/-! ### Generic order and fold lemmas -/

lemma ite_gt_eq_max {α : Type*} [LinearOrder α] (a b : α) :
    (if b > a then b else a) = max a b := by
  rcases le_or_lt b a with h | h
  · rw [if_neg (not_lt.mpr h), max_eq_left h]
  · rw [if_pos h, max_eq_right h.le]

lemma foldl_max_perm {α : Type*} [LinearOrder α] {l l' : List α} (h : l.Perm l') :
    ∀ a : α, l.foldl max a = l'.foldl max a := by
  induction h with
  | nil => intro a; rfl
  | cons x _ ih => intro a; simp only [List.foldl_cons]; exact ih (max a x)
  | swap x y l =>
      intro a
      simp only [List.foldl_cons]
      rw [max_assoc, max_comm y x, ← max_assoc]
  | trans _ _ ih₁ ih₂ => intro a; rw [ih₁ a, ih₂ a]

lemma coe_max_wb (a b : ℤ) : ((max a b : ℤ) : WithBot ℤ) = max (↑a) (↑b) := by
  rcases le_total a b with h | h
  · rw [max_eq_right h, max_eq_right (WithBot.coe_le_coe.mpr h)]
  · rw [max_eq_left h, max_eq_left (WithBot.coe_le_coe.mpr h)]

lemma pyMax_nil : pyMax [] = ⊥ := rfl

lemma foldl_max_coe (xs : List ℤ) : ∀ a : ℤ,
    xs.foldl (fun (b : WithBot ℤ) (y : ℤ) => max b ↑y) ↑a = ↑(xs.foldl max a) := by
  induction xs with
  | nil => intro a; rfl
  | cons x xs ih =>
      intro a
      simp only [List.foldl_cons]
      rw [← coe_max_wb]
      exact ih (max a x)

lemma pyMax_ne_nil {l : List ℤ} (h : l ≠ []) : pyMax l = ↑(maxZ l) := by
  cases l with
  | nil => exact absurd rfl h
  | cons x xs =>
      simp only [pyMax, List.foldl_cons, maxZ]
      rw [max_eq_right bot_le]
      exact foldl_max_coe xs x

lemma foldl_max_start (l : List ℤ) : ∀ a : WithBot ℤ,
    l.foldl (fun (b : WithBot ℤ) (y : ℤ) => max b ↑y) a = max a (pyMax l) := by
  induction l with
  | nil =>
      intro a
      simp only [List.foldl_nil, pyMax_nil]
      rw [max_eq_left bot_le]
  | cons x xs ih =>
      intro a
      have h1 : pyMax (x :: xs) = max ↑x (pyMax xs) := by
        simp only [pyMax, List.foldl_cons]
        rw [max_eq_right bot_le]
        exact ih _
      simp only [List.foldl_cons]
      rw [ih (max a ↑x), h1, max_assoc]

lemma pyMax_append (l₁ l₂ : List ℤ) : pyMax (l₁ ++ l₂) = max (pyMax l₁) (pyMax l₂) :=
  calc pyMax (l₁ ++ l₂)
      = (l₁ ++ l₂).foldl (fun (b : WithBot ℤ) (y : ℤ) => max b ↑y) ⊥ := rfl
    _ = l₂.foldl (fun (b : WithBot ℤ) (y : ℤ) => max b ↑y)
          (l₁.foldl (fun (b : WithBot ℤ) (y : ℤ) => max b ↑y) ⊥) := List.foldl_append ..
    _ = l₂.foldl (fun (b : WithBot ℤ) (y : ℤ) => max b ↑y) (pyMax l₁) := rfl
    _ = max (pyMax l₁) (pyMax l₂) := foldl_max_start l₂ _

lemma foldl_max_mem (xs : List ℤ) : ∀ a : ℤ, xs.foldl max a = a ∨ xs.foldl max a ∈ xs := by
  induction xs with
  | nil => intro a; exact Or.inl rfl
  | cons x xs ih =>
      intro a
      simp only [List.foldl_cons]
      rcases ih (max a x) with h | h
      · rcases le_total a x with hx | hx
        · right; rw [h, max_eq_right hx]; exact List.mem_cons_self x xs
        · left; rw [h, max_eq_left hx]
      · right; exact List.mem_cons_of_mem _ h

lemma maxZ_mem {l : List ℤ} (h : l ≠ []) : maxZ l ∈ l := by
  cases l with
  | nil => exact absurd rfl h
  | cons x xs =>
      simp only [maxZ]
      rcases foldl_max_mem xs x with h1 | h1
      · rw [h1]; exact List.mem_cons_self x xs
      · exact List.mem_cons_of_mem _ h1

/-! ### Partition lemmas -/

lemma chunks_of_eq (data : List ℤ) (k : ℕ) : chunks_of data k = split_into_chunks data k := rfl

lemma chunkSizes_length (n k : ℕ) : (chunkSizes n k).length = k := by
  simp [chunkSizes]

lemma sum_map_range_ite (a r : ℕ) :
    ∀ k : ℕ, (((List.range k).map fun i => a + if i < r then 1 else 0).sum) = k * a + min r k := by
  intro k
  induction k with
  | zero => simp
  | succ k ih =>
      rw [List.range_succ, List.map_append, List.sum_append, ih]
      simp only [List.map_cons, List.map_nil, List.sum_cons, List.sum_nil, add_one_mul]
      rcases lt_or_ge k r with h | h
      · rw [if_pos h]; generalize k * a = X; omega
      · rw [if_neg (not_lt.mpr h)]; generalize k * a = X; omega

lemma chunkSizes_sum (n : ℕ) {k : ℕ} (hk : 1 ≤ k) : (chunkSizes n k).sum = n := by
  have h := sum_map_range_ite (n / k) (n % k) k
  rw [chunkSizes, h, min_eq_left (Nat.mod_lt n hk).le]
  exact Nat.div_add_mod n k

lemma splitSizes_length : ∀ (szs : List ℕ) (l : List ℤ), (splitSizes l szs).length = szs.length := by
  intro szs
  induction szs with
  | nil => intro l; rfl
  | cons s rest ih => intro l; simp [splitSizes, ih]

lemma splitSizes_map_length :
    ∀ (szs : List ℕ) (l : List ℤ), szs.sum ≤ l.length →
      (splitSizes l szs).map List.length = szs := by
  intro szs
  induction szs with
  | nil => intro l _; rfl
  | cons s rest ih =>
      intro l h
      rw [List.sum_cons] at h
      simp only [splitSizes, List.map_cons]
      have h1 : (l.take s).length = s := by rw [List.length_take]; omega
      have h2 : rest.sum ≤ (l.drop s).length := by rw [List.length_drop]; omega
      rw [h1, ih _ h2]

lemma splitSizes_flatten :
    ∀ (szs : List ℕ) (l : List ℤ), (splitSizes l szs).flatten = l.take szs.sum := by
  intro szs
  induction szs with
  | nil => intro l; simp [splitSizes]
  | cons s rest ih =>
      intro l
      simp only [splitSizes, List.flatten_cons, ih, List.sum_cons]
      rw [List.take_add]

lemma split_into_chunks_flatten (data : List ℤ) {k : ℕ} (hk : 1 ≤ k) :
    (split_into_chunks data k).flatten = data := by
  rw [split_into_chunks, splitSizes_flatten, chunkSizes_sum data.length hk, List.take_length]

lemma split_into_chunks_length (data : List ℤ) (k : ℕ) :
    (split_into_chunks data k).length = k := by
  rw [split_into_chunks, splitSizes_length, chunkSizes_length]

lemma split_into_chunks_map_length (data : List ℤ) {k : ℕ} (hk : 1 ≤ k) :
    (split_into_chunks data k).map List.length = chunkSizes data.length k := by
  rw [split_into_chunks]
  exact splitSizes_map_length _ _ (by rw [chunkSizes_sum data.length hk])

lemma ceil_div_eq {n k : ℕ} (hk : 1 ≤ k) (hr : n % k ≠ 0) : (n + k - 1) / k = n / k + 1 := by
  have hn : n ≠ 0 := by intro h; subst h; simp at hr
  have h1 : n + k - 1 = (n - 1) + k := by omega
  rw [h1, Nat.add_div_right _ hk]
  congr 1
  have h2 : n = (n - 1) + 1 := by omega
  have hnd : ¬ k ∣ (n - 1) + 1 := by
    rw [← h2]
    exact fun hd => hr (Nat.dvd_iff_mod_eq_zero.mp hd)
  conv_rhs => rw [h2]
  exact (Nat.succ_div_of_not_dvd hnd).symm

lemma countP_range_lt (r : ℕ) :
    ∀ k : ℕ, (List.range k).countP (fun i => decide (i < r)) = min r k := by
  intro k
  induction k with
  | zero => simp
  | succ k ih =>
      rw [List.range_succ, List.countP_append, ih]
      have h1 : List.countP (fun i => decide (i < r)) [k] = if k < r then 1 else 0 := by
        by_cases h : k < r <;> simp [h]
      rw [h1]
      by_cases h : k < r
      · rw [if_pos h]; omega
      · rw [if_neg h]; omega

/-! ### Merge and sort lemmas -/

lemma merge2_nil_right (xs : List ℤ) : merge2 xs [] = xs := by
  cases xs <;> simp [merge2]

lemma merge2_perm : ∀ (xs ys : List ℤ), (merge2 xs ys).Perm (xs ++ ys) := by
  intro xs ys
  induction xs, ys using merge2.induct with
  | case1 ys => simp [merge2]
  | case2 xs h => rw [merge2_nil_right, List.append_nil]
  | case3 x xs y ys h ih =>
      rw [merge2, if_pos h]
      exact ih.cons x
  | case4 x xs y ys h ih =>
      rw [merge2, if_neg h]
      exact (ih.cons y).trans List.perm_middle.symm

lemma merge2_sorted : ∀ (xs ys : List ℤ),
    List.Sorted (· ≤ ·) xs → List.Sorted (· ≤ ·) ys →
      List.Sorted (· ≤ ·) (merge2 xs ys) := by
  intro xs ys
  induction xs, ys using merge2.induct with
  | case1 ys => intro _ h; simpa [merge2] using h
  | case2 xs h => intro h _; rwa [merge2_nil_right]
  | case3 x xs y ys h ih =>
      intro hxs hys
      rw [merge2, if_pos h, List.sorted_cons]
      refine ⟨fun b hb => ?_, ih (List.sorted_cons.mp hxs).2 hys⟩
      have hb' : b ∈ xs ++ y :: ys := (merge2_perm xs (y :: ys)).mem_iff.mp hb
      rcases List.mem_append.mp hb' with h1 | h1
      · exact (List.sorted_cons.mp hxs).1 b h1
      · rcases List.mem_cons.mp h1 with rfl | h2
        · exact h
        · exact le_trans h ((List.sorted_cons.mp hys).1 b h2)
  | case4 x xs y ys h ih =>
      intro hxs hys
      rw [merge2, if_neg h, List.sorted_cons]
      refine ⟨fun b hb => ?_, ih hxs (List.sorted_cons.mp hys).2⟩
      have hy : y ≤ x := (not_le.mp h).le
      have hb' : b ∈ (x :: xs) ++ ys := (merge2_perm (x :: xs) ys).mem_iff.mp hb
      rcases List.mem_append.mp hb' with h1 | h1
      · rcases List.mem_cons.mp h1 with rfl | h2
        · exact hy
        · exact le_trans hy ((List.sorted_cons.mp hxs).1 b h2)
      · exact (List.sorted_cons.mp hys).1 b h1

lemma reduce_merge_sorted_sorted :
    ∀ cs : List (List ℤ), (∀ c ∈ cs, List.Sorted (· ≤ ·) c) →
      List.Sorted (· ≤ ·) (reduce_merge_sorted cs) := by
  intro cs
  induction cs with
  | nil => intro _; exact List.sorted_nil
  | cons c cs ih =>
      intro h
      simp only [reduce_merge_sorted, List.foldr_cons]
      exact merge2_sorted _ _ (h c (List.mem_cons_self c cs))
        (ih fun d hd => h d (List.mem_cons_of_mem _ hd))

lemma reduce_merge_sorted_perm :
    ∀ cs : List (List ℤ), (reduce_merge_sorted cs).Perm cs.flatten := by
  intro cs
  induction cs with
  | nil => exact List.Perm.refl _
  | cons c cs ih =>
      simp only [reduce_merge_sorted, List.foldr_cons, List.flatten_cons]
      exact (merge2_perm c _).trans (List.Perm.append_left c ih)

lemma pySort_sorted (l : List ℤ) : List.Sorted (· ≤ ·) (pySort l) :=
  List.sorted_insertionSort _ l

lemma pySort_perm (l : List ℤ) : (pySort l).Perm l :=
  List.perm_insertionSort _ l

lemma flatten_map_perm (cs : List (List ℤ)) :
    ((cs.map map_sort_chunk).flatten).Perm cs.flatten := by
  induction cs with
  | nil => exact List.Perm.refl _
  | cons c cs ih =>
      simp only [List.map_cons, List.flatten_cons]
      exact List.Perm.append (pySort_perm c) ih

lemma sort_threads_eq_pySort (data : List ℤ) {k : ℕ} (hk : 1 ≤ k) :
    sort_threads data k = pySort data := by
  have hsorted : ∀ c ∈ (chunks_of data k).map map_sort_chunk, List.Sorted (· ≤ ·) c := by
    intro c hc
    obtain ⟨a, _, rfl⟩ := List.mem_map.mp hc
    exact pySort_sorted a
  have hperm : (sort_threads data k).Perm data := by
    refine (reduce_merge_sorted_perm _).trans ?_
    refine (flatten_map_perm _).trans ?_
    rw [chunks_of_eq, split_into_chunks_flatten data hk]
  exact List.eq_of_perm_of_sorted (hperm.trans (pySort_perm data).symm)
    (reduce_merge_sorted_sorted _ hsorted) (pySort_sorted data)

/-! ### Max-aggregation lemmas -/

lemma max_threads_step_eq (acc : WithBot ℤ) (ch : List ℤ) :
    max_threads_step acc ch = max acc (pyMax ch) := by
  simp only [max_threads_step]
  rw [ite_gt_eq_max]
  by_cases h : ch = []
  · rw [if_pos h, h, pyMax_nil]
  · rw [if_neg h, pyMax_ne_nil h]

lemma max_threaded_step_eq (acc : WithBot ℤ) (ch : List ℤ) :
    max_threaded_step acc ch = max acc (pyMax ch) := by
  by_cases h : ch = []
  · simp only [max_threaded_step, if_pos h, h, pyMax_nil]
    exact (max_eq_left bot_le).symm
  · simp only [max_threaded_step, if_neg h]
    rw [ite_gt_eq_max, pyMax_ne_nil h]

lemma foldl_maxstep_eq {g : WithBot ℤ → List ℤ → WithBot ℤ}
    (hg : ∀ a ch, g a ch = max a (pyMax ch)) :
    ∀ (cs : List (List ℤ)) (a : WithBot ℤ), cs.foldl g a = max a (pyMax cs.flatten) := by
  intro cs
  induction cs with
  | nil =>
      intro a
      simp only [List.foldl_nil, List.flatten_nil, pyMax_nil]
      exact (max_eq_left bot_le).symm
  | cons c cs ih =>
      intro a
      rw [List.foldl_cons, hg, ih, List.flatten_cons, pyMax_append, max_assoc]

lemma max_threads_eq (data : List ℤ) {k : ℕ} (hk : 1 ≤ k) :
    max_threads data k = pyMax data := by
  rw [max_threads, foldl_maxstep_eq max_threads_step_eq, chunks_of_eq,
    split_into_chunks_flatten data hk, max_eq_right bot_le]

lemma max_threaded_eq (data : List ℤ) {k : ℕ} (hk : 1 ≤ k) :
    max_threaded data k = pyMax data := by
  rw [max_threaded, foldl_maxstep_eq max_threaded_step_eq,
    split_into_chunks_flatten data hk, max_eq_right bot_le]

lemma wrap32_fits {x : ℤ} (h : fits32 x) : wrap32 x = x := by
  obtain ⟨h1, h2⟩ := h
  simp only [wrap32]
  omega

lemma wrap64_fits {x : ℤ} (h : fits64 x) : wrap64 x = x := by
  obtain ⟨h1, h2⟩ := h
  simp only [wrap64]
  omega

lemma max_process_step_eq (a : ℤ) (ch : List ℤ) (hch : ∀ x ∈ ch, fits32 x) :
    max_process_step a ch = if ch = [] then a else max a (maxZ ch) := by
  by_cases h : ch = []
  · simp [max_process_step, h]
  · simp only [max_process_step, if_neg h]
    rw [wrap32_fits (hch _ (maxZ_mem h)), ite_gt_eq_max]

lemma foldl_process_eq :
    ∀ (cs : List (List ℤ)) (a : ℤ), (∀ x ∈ cs.flatten, fits32 x) →
      ((cs.foldl max_process_step a : ℤ) : WithBot ℤ) = max ↑a (pyMax cs.flatten) := by
  intro cs
  induction cs with
  | nil =>
      intro a _
      simp only [List.foldl_nil, List.flatten_nil, pyMax_nil]
      exact (max_eq_left bot_le).symm
  | cons c cs ih =>
      intro a hfit
      have hc : ∀ x ∈ c, fits32 x := fun x hx =>
        hfit x (by rw [List.flatten_cons]; exact List.mem_append.mpr (Or.inl hx))
      have hcs : ∀ x ∈ cs.flatten, fits32 x := fun x hx =>
        hfit x (by rw [List.flatten_cons]; exact List.mem_append.mpr (Or.inr hx))
      rw [List.foldl_cons, max_process_step_eq a c hc]
      by_cases h : c = []
      · rw [if_pos h, ih a hcs, h, List.flatten_cons, List.nil_append]
      · rw [if_neg h, ih _ hcs, coe_max_wb, List.flatten_cons, pyMax_append,
          pyMax_ne_nil h, max_assoc]

lemma max_process_eq (data : List ℤ) {k : ℕ} (hne : data ≠ []) (hk : 1 ≤ k)
    (hfit : ∀ x ∈ data, fits32 x) :
    max_process data k = max max_process_init (maxZ data) := by
  have h := foldl_process_eq (split_into_chunks data k) max_process_init
    (by rw [split_into_chunks_flatten data hk]; exact hfit)
  rw [split_into_chunks_flatten data hk, pyMax_ne_nil hne, ← coe_max_wb] at h
  exact WithBot.coe_inj.mp h

lemma max_process_nil {k : ℕ} (hk : 1 ≤ k) : max_process [] k = max_process_init := by
  have h := foldl_process_eq (split_into_chunks [] k) max_process_init
    (by rw [split_into_chunks_flatten [] hk]; intro x hx; cases hx)
  rw [split_into_chunks_flatten [] hk, pyMax_nil, max_eq_left bot_le] at h
  exact WithBot.coe_inj.mp h

lemma max_processes_step_eq (a : ℤ) (ch : List ℤ) (hch : ∀ x ∈ ch, fits64 x) :
    max_processes_step a ch = max a (if ch = [] then -10 ^ 18 else maxZ ch) := by
  by_cases h : ch = []
  · simp only [max_processes_step, if_pos h]
    rw [wrap64_fits (by norm_num [fits64]), ite_gt_eq_max]
  · simp only [max_processes_step, if_neg h]
    rw [wrap64_fits (hch _ (maxZ_mem h)), ite_gt_eq_max]

lemma foldl_processes_eq :
    ∀ (cs : List (List ℤ)) (a : ℤ), -10 ^ 18 ≤ a → (∀ x ∈ cs.flatten, fits64 x) →
      ((cs.foldl max_processes_step a : ℤ) : WithBot ℤ) = max ↑a (pyMax cs.flatten) := by
  intro cs
  induction cs with
  | nil =>
      intro a _ _
      simp only [List.foldl_nil, List.flatten_nil, pyMax_nil]
      exact (max_eq_left bot_le).symm
  | cons c cs ih =>
      intro a ha hfit
      have hc : ∀ x ∈ c, fits64 x := fun x hx =>
        hfit x (by rw [List.flatten_cons]; exact List.mem_append.mpr (Or.inl hx))
      have hcs : ∀ x ∈ cs.flatten, fits64 x := fun x hx =>
        hfit x (by rw [List.flatten_cons]; exact List.mem_append.mpr (Or.inr hx))
      rw [List.foldl_cons, max_processes_step_eq a c hc]
      by_cases h : c = []
      · rw [if_pos h, max_eq_left ha, ih a ha hcs, h, List.flatten_cons, List.nil_append]
      · rw [if_neg h, ih _ (le_trans ha (le_max_left a _)) hcs, coe_max_wb,
          List.flatten_cons, pyMax_append, pyMax_ne_nil h, max_assoc]

lemma max_processes_eq (data : List ℤ) {k : ℕ} (hne : data ≠ []) (hk : 1 ≤ k)
    (hfit : ∀ x ∈ data, fits64 x) :
    max_processes data k = max (-10 ^ 18) (maxZ data) := by
  have h := foldl_processes_eq (chunks_of data k) (-10 ^ 18) le_rfl
    (by rw [chunks_of_eq, split_into_chunks_flatten data hk]; exact hfit)
  rw [chunks_of_eq, split_into_chunks_flatten data hk, pyMax_ne_nil hne, ← coe_max_wb] at h
  exact WithBot.coe_inj.mp h

lemma max_processes_nil {k : ℕ} (hk : 1 ≤ k) : max_processes [] k = -10 ^ 18 := by
  have h := foldl_processes_eq (chunks_of [] k) (-10 ^ 18) le_rfl
    (by rw [chunks_of_eq, split_into_chunks_flatten [] hk]; intro x hx; cases hx)
  rw [chunks_of_eq, split_into_chunks_flatten [] hk, pyMax_nil, max_eq_left bot_le] at h
  exact WithBot.coe_inj.mp h

lemma reduce_max_eq_foldl (init : WithBot ℤ) (rs : List (WithBot ℤ)) :
    reduce_max init rs = rs.foldl max init := by
  rw [reduce_max]
  congr 1
  funext a r
  exact ite_gt_eq_max a r

lemma split_into_chunks_one (data : List ℤ) : split_into_chunks data 1 = [data] := by
  simp [split_into_chunks, chunkSizes, List.range_succ, Nat.div_one, Nat.mod_one,
    splitSizes, List.take_length]

/-! ### Claim theorems -/

/-- C3: for every `data` and `k ≥ 1` the partitioner returns exactly `k`
contiguous segments, segment `i` (0-indexed) has size `n // k + (1 if i < n % k
else 0)`, concatenating the segments in order reproduces `data`, every segment
size is `⌊n/k⌋` or `⌈n/k⌉`, no more than `n mod k` segments have the larger
size, and `chunks_of` of src/main.py computes the very same partition as
`split_into_chunks` of src/utils/helpers.py. -/
theorem partition_invariant (data : List ℤ) (k : ℕ) (hk : 1 ≤ k) :
    (split_into_chunks data k).length = k ∧
    (split_into_chunks data k).map List.length =
      (List.range k).map (fun i => data.length / k + if i < data.length % k then 1 else 0) ∧
    (split_into_chunks data k).flatten = data ∧
    (∀ c ∈ split_into_chunks data k,
      c.length = data.length / k ∨ c.length = (data.length + k - 1) / k) ∧
    (split_into_chunks data k).countP
      (fun c => decide (data.length / k < c.length)) ≤ data.length % k ∧
    chunks_of data k = split_into_chunks data k := by
  refine ⟨split_into_chunks_length data k, ?_, split_into_chunks_flatten data hk, ?_, ?_, rfl⟩
  · simpa [chunkSizes] using split_into_chunks_map_length data hk
  · intro c hc
    have hmem : c.length ∈ chunkSizes data.length k := by
      rw [← split_into_chunks_map_length data hk]
      exact List.mem_map_of_mem _ hc
    simp only [chunkSizes] at hmem
    obtain ⟨i, _, heq⟩ := List.mem_map.mp hmem
    by_cases h : i < data.length % k
    · right
      rw [if_pos h] at heq
      have hr : data.length % k ≠ 0 := by omega
      rw [ceil_div_eq hk hr]
      omega
    · left
      rw [if_neg h] at heq
      omega
  · have h1 : (split_into_chunks data k).countP (fun c => decide (data.length / k < c.length))
        = (chunkSizes data.length k).countP (fun s => decide (data.length / k < s)) := by
      rw [← split_into_chunks_map_length data hk, List.countP_map]
      rfl
    rw [h1]
    simp only [chunkSizes]
    rw [List.countP_map]
    have h2 : ((fun s => decide (data.length / k < s)) ∘
        fun i => data.length / k + if i < data.length % k then 1 else 0)
        = fun i => decide (i < data.length % k) := by
      funext i
      by_cases h : i < data.length % k <;> simp [Function.comp, h]
    rw [h2, countP_range_lt]
    exact min_le_left _ _

/-- C3 witness: the partition invariant instantiated at `data = [5,-3,9,9,0]`,
`k = 3` (sizes `[2,2,1]`). -/
theorem partition_invariant_witness :
    (split_into_chunks [5, -3, 9, 9, 0] 3).length = 3 ∧
    (split_into_chunks [5, -3, 9, 9, 0] 3).map List.length =
      (List.range 3).map
        (fun i => (5 : ℕ) / 3 + if i < (5 : ℕ) % 3 then 1 else 0) ∧
    (split_into_chunks [5, -3, 9, 9, 0] 3).flatten = [5, -3, 9, 9, 0] ∧
    (∀ c ∈ split_into_chunks [5, -3, 9, 9, 0] 3,
      c.length = (5 : ℕ) / 3 ∨ c.length = (5 + 3 - 1) / 3) ∧
    (split_into_chunks [5, -3, 9, 9, 0] 3).countP
      (fun c => decide ((5 : ℕ) / 3 < c.length)) ≤ (5 : ℕ) % 3 ∧
    chunks_of [5, -3, 9, 9, 0] 3 = split_into_chunks [5, -3, 9, 9, 0] 3 :=
  partition_invariant [5, -3, 9, 9, 0] 3 (by decide)

/-- C2: for every nonempty `data` and `k ∈ {1,2,4,8}`, both the threaded and
the process sort executor produce, after the merge of the per-segment sorted
results, an ascending output that is a permutation of `data`. -/
theorem sort_executors_correct (data : List ℤ) (k : ℕ) (_hne : data ≠ [])
    (hk : k = 1 ∨ k = 2 ∨ k = 4 ∨ k = 8) :
    List.Sorted (· ≤ ·) (sort_threads data k) ∧ (sort_threads data k).Perm data ∧
    List.Sorted (· ≤ ·) (sort_processes data k) ∧ (sort_processes data k).Perm data := by
  have hk1 : 1 ≤ k := by rcases hk with rfl | rfl | rfl | rfl <;> norm_num
  have h1 : sort_threads data k = pySort data := sort_threads_eq_pySort data hk1
  have h2 : sort_processes data k = sort_threads data k := rfl
  rw [h2, h1]
  exact ⟨pySort_sorted data, pySort_perm data, pySort_sorted data, pySort_perm data⟩

/-- C2 witness: the spec's concrete scenario `data = [5,-3,9,9,0]`, `k = 2`. -/
theorem sort_executors_correct_witness :
    List.Sorted (· ≤ ·) (sort_threads [5, -3, 9, 9, 0] 2) ∧
    (sort_threads [5, -3, 9, 9, 0] 2).Perm [5, -3, 9, 9, 0] ∧
    List.Sorted (· ≤ ·) (sort_processes [5, -3, 9, 9, 0] 2) ∧
    (sort_processes [5, -3, 9, 9, 0] 2).Perm [5, -3, 9, 9, 0] :=
  sort_executors_correct [5, -3, 9, 9, 0] 2 (by decide) (Or.inr (Or.inl rfl))

/-- C1 counterexample: the isolated-memory max executor of
src/max_value_aggregation/max_process.py does not return the true maximum for
`data = [-100000000]`, `k = 1`: the local maximum `-100000000` never exceeds
the initial accumulator `-99999999`, so the sentinel is returned. -/
theorem max_executors_counterexample :
    max_process [-100000000] 1 = -99999999 ∧
    maxZ [-100000000] = -100000000 ∧
    max_process [-100000000] 1 ≠ maxZ [-100000000] := by decide

/-- C1 amended: for every nonempty `data` and `k ∈ {1,2,4,8}` the two threaded
max executors return the true maximum of `data`; the two process executors
return the true maximum capped from below by their initial sentinel
(`-99999999` for `max_process` with all elements 32-bit,
`-10^18` for `max_processes` of src/main.py with all elements 64-bit). -/
theorem max_executors_amended (data : List ℤ) (k : ℕ) (hne : data ≠ [])
    (hk : k = 1 ∨ k = 2 ∨ k = 4 ∨ k = 8) :
    max_threads data k = ↑(maxZ data) ∧
    max_threaded data k = ↑(maxZ data) ∧
    ((∀ x ∈ data, fits32 x) → max_process data k = max max_process_init (maxZ data)) ∧
    ((∀ x ∈ data, fits64 x) → max_processes data k = max (-10 ^ 18) (maxZ data)) := by
  have hk1 : 1 ≤ k := by rcases hk with rfl | rfl | rfl | rfl <;> norm_num
  refine ⟨?_, ?_, ?_, ?_⟩
  · rw [max_threads_eq data hk1, pyMax_ne_nil hne]
  · rw [max_threaded_eq data hk1, pyMax_ne_nil hne]
  · intro h; exact max_process_eq data hne hk1 h
  · intro h; exact max_processes_eq data hne hk1 h

/-- C1 amended witness: `data = [5,-3,9,9,0]`, `k = 4`; every executor returns
the true maximum `9` (which is above both sentinels). -/
theorem max_executors_amended_witness :
    max_threads [5, -3, 9, 9, 0] 4 = ↑(maxZ [5, -3, 9, 9, 0]) ∧
    max_threaded [5, -3, 9, 9, 0] 4 = ↑(maxZ [5, -3, 9, 9, 0]) ∧
    max_process [5, -3, 9, 9, 0] 4 = max max_process_init (maxZ [5, -3, 9, 9, 0]) ∧
    max_processes [5, -3, 9, 9, 0] 4 = max (-10 ^ 18) (maxZ [5, -3, 9, 9, 0]) :=
  have h := max_executors_amended [5, -3, 9, 9, 0] 4 (by decide)
    (Or.inr (Or.inr (Or.inl rfl)))
  ⟨h.1, h.2.1, h.2.2.1 (by decide), h.2.2.2 (by decide)⟩

/-- C4 counterexample: on empty input the max operation does not fail with an
EmptyInput condition; it silently returns its sentinel as if it were a valid
maximum (`float('-inf')` for the threaded executor, `-99999999` for the
process executor). -/
theorem empty_input_counterexample :
    max_threads [] 4 = (⊥ : WithBot ℤ) ∧ max_process [] 4 = max_process_init := by decide

/-- C4 amended: on empty input, for any worker count `k ≥ 1`, sort returns the
empty sequence, but max does not fail: each executor returns its initial
sentinel (`-∞`, `-99999999`, or `-10^18`) as the result. -/
theorem empty_input_amended (k : ℕ) (hk : 1 ≤ k) :
    sort_threads [] k = [] ∧ sort_processes [] k = [] ∧
    max_threads [] k = ⊥ ∧ max_threaded [] k = ⊥ ∧
    max_process [] k = max_process_init ∧ max_processes [] k = -10 ^ 18 := by
  refine ⟨?_, ?_, ?_, ?_, max_process_nil hk, max_processes_nil hk⟩
  · rw [sort_threads_eq_pySort [] hk]; rfl
  · rw [show sort_processes [] k = sort_threads [] k from rfl,
      sort_threads_eq_pySort [] hk]
    rfl
  · rw [max_threads_eq [] hk, pyMax_nil]
  · rw [max_threaded_eq [] hk, pyMax_nil]

/-- C4 amended witness: the spec's concrete scenario `data = []`, `k = 4`. -/
theorem empty_input_amended_witness :
    sort_threads [] 4 = [] ∧ sort_processes [] 4 = [] ∧
    max_threads [] 4 = ⊥ ∧ max_threaded [] 4 = ⊥ ∧
    max_process [] 4 = max_process_init ∧ max_processes [] 4 = -10 ^ 18 :=
  empty_input_amended 4 (by decide)

/-- C5 counterexample: for the negative worker count `k = -2` the partitioner
does not fail — the partition loop runs zero times and an empty chunk list is
returned successfully. -/
theorem invalid_worker_count_counterexample :
    split_into_chunksZ [1, 2, 3] (-2) = Except.ok [] := rfl

/-- C5 amended: for `k = 0` the partitioner fails (ZeroDivisionError at
`n // k`, no partition produced); for `k < 0` it does not fail and silently
returns an empty chunk list. -/
theorem invalid_worker_count_amended (data : List ℤ) (k : ℤ) (hk : k < 1) :
    split_into_chunksZ data k =
      if k = 0 then Except.error PyErr.zeroDivisionError else Except.ok [] := by
  by_cases h : k = 0
  · rw [split_into_chunksZ, if_pos h, if_pos h]
  · rw [split_into_chunksZ, if_neg h, if_neg h]
    have ht : k.toNat = 0 := Int.toNat_of_nonpos (by omega)
    rw [ht]
    rfl

/-- C5 amended witness: `data = [7]`, `k = -5`. -/
theorem invalid_worker_count_amended_witness :
    (-5 : ℤ) < 1 ∧
    split_into_chunksZ [7] (-5) =
      (if (-5 : ℤ) = 0 then Except.error PyErr.zeroDivisionError else Except.ok []) :=
  ⟨by decide, invalid_worker_count_amended [7] (-5) (by decide)⟩

/-- C6 counterexample: the process executor's accumulator is initialized to
`-99999999`, which is neither the minimum representable value of its 32-bit
cell (`-2^31`) nor lower than every valid input: the valid input element
`-100000001` compares below the initial accumulator, and the run on that
single element returns the sentinel. -/
theorem accumulator_init_counterexample :
    ((-100000001 : ℤ) < max_process_init) ∧
    max_process_init ≠ -(2 ^ 31) ∧
    max_process [-100000001] 1 = max_process_init := by decide

/-- C6 amended: the threaded executors initialize the accumulator to
`float('-inf')`, strictly below every integer, as the claim requires; the
process executor of src/max_value_aggregation/max_process.py initializes it to
the fixed sentinel `-99999999`, and any input element below that sentinel
compares below the initial accumulator and is masked by it. -/
theorem accumulator_init_amended : ∀ x : ℤ,
    (⊥ : WithBot ℤ) < ↑x ∧ max_process_init = -99999999 ∧
    (x < max_process_init → max_process [x] 1 = max_process_init) := by
  intro x
  refine ⟨WithBot.bot_lt_coe x, rfl, ?_⟩
  intro h
  rw [max_process, split_into_chunks_one]
  simp only [List.foldl_cons, List.foldl_nil, max_process_step, maxZ]
  rw [if_neg (not_lt.mpr h.le), if_neg (List.cons_ne_nil x [])]

/-- C6 amended witness: the element `-100000003` is below the process
executor's initial accumulator and the run returns the sentinel. -/
theorem accumulator_init_amended_witness :
    (-100000003 : ℤ) < max_process_init ∧
    max_process [-100000003] 1 = max_process_init :=
  ⟨by decide, (accumulator_init_amended (-100000003)).2.2 (by decide)⟩

/-- C7 counterexample: nonempty `data = [-100000000, -100000002]` with
`k = 3 > n = 2`: the process max executor returns the sentinel `-99999999`
instead of the maximum `-100000000` of the nonempty segments. -/
theorem more_workers_counterexample :
    max_process [-100000000, -100000002] 3 = -99999999 ∧
    maxZ [-100000000, -100000002] = -100000000 ∧
    max_process [-100000000, -100000002] 3 ≠ maxZ [-100000000, -100000002] := by decide

/-- C7 amended: for nonempty `data` and `k > n` no operation crashes — the
sorts return the sorted permutation of `data`, the threaded max executors
return the true maximum (an empty segment's worker dies on `max([])` without
contributing, or contributes `-∞`, leaving the accumulator unchanged), and the
process executor returns the true maximum capped from below by its sentinel
`-99999999`. -/
theorem more_workers_amended (data : List ℤ) (k : ℕ) (hne : data ≠ [])
    (hk : data.length < k) :
    List.Sorted (· ≤ ·) (sort_threads data k) ∧ (sort_threads data k).Perm data ∧
    sort_processes data k = sort_threads data k ∧
    max_threads data k = ↑(maxZ data) ∧ max_threaded data k = ↑(maxZ data) ∧
    ((∀ x ∈ data, fits32 x) → max_process data k = max max_process_init (maxZ data)) := by
  have hk1 : 1 ≤ k := by
    have := List.length_pos.mpr hne
    omega
  have h1 : sort_threads data k = pySort data := sort_threads_eq_pySort data hk1
  refine ⟨?_, ?_, rfl, ?_, ?_, ?_⟩
  · rw [h1]; exact pySort_sorted data
  · rw [h1]; exact pySort_perm data
  · rw [max_threads_eq data hk1, pyMax_ne_nil hne]
  · rw [max_threaded_eq data hk1, pyMax_ne_nil hne]
  · intro h; exact max_process_eq data hne hk1 h

/-- C7 amended witness: `data = [5,-3]`, `k = 4` (two trailing empty
segments). -/
theorem more_workers_amended_witness :
    List.Sorted (· ≤ ·) (sort_threads [5, -3] 4) ∧ (sort_threads [5, -3] 4).Perm [5, -3] ∧
    sort_processes [5, -3] 4 = sort_threads [5, -3] 4 ∧
    max_threads [5, -3] 4 = ↑(maxZ [5, -3]) ∧ max_threaded [5, -3] 4 = ↑(maxZ [5, -3]) ∧
    max_process [5, -3] 4 = max max_process_init (maxZ [5, -3]) :=
  have h := more_workers_amended [5, -3] 4 (by decide) (by decide)
  ⟨h.1, h.2.1, h.2.2.1, h.2.2.2.1, h.2.2.2.2.1, h.2.2.2.2.2 (by decide)⟩

/-- C8 counterexample: with `k = 1` the process max path is not identical to a
sequential max of the whole input: on `data = [-123456789]` it returns the
sentinel `-99999999` instead of `-123456789`. -/
theorem single_worker_counterexample :
    max_process [-123456789] 1 = -99999999 ∧
    maxZ [-123456789] = -123456789 ∧
    max_process [-123456789] 1 ≠ maxZ [-123456789] := by decide

/-- C8 amended: with `k = 1` every sort path returns exactly `sorted(data)`
and the threaded max paths return exactly the sequential maximum (with the
`-∞` sentinel for empty input); the process max path agrees with the
sequential maximum only up to capping by its sentinel `-99999999`. -/
theorem single_worker_amended (data : List ℤ) :
    sort_threads data 1 = pySort data ∧ sort_processes data 1 = pySort data ∧
    map_sort_threaded data 1 = [pySort data] ∧ map_sort_process data 1 = [pySort data] ∧
    max_threads data 1 = pyMax data ∧ max_threaded data 1 = pyMax data ∧
    (data ≠ [] → (∀ x ∈ data, fits32 x) →
      max_process data 1 = max max_process_init (maxZ data)) := by
  refine ⟨sort_threads_eq_pySort data le_rfl, sort_threads_eq_pySort data le_rfl,
    ?_, ?_, max_threads_eq data le_rfl, max_threaded_eq data le_rfl,
    fun hne hfit => max_process_eq data hne le_rfl hfit⟩
  · rw [map_sort_threaded, split_into_chunks_one]; rfl
  · rw [map_sort_process, split_into_chunks_one]; rfl

/-- C8 amended witness: `data = [5,-3,9]`, `k = 1`. -/
theorem single_worker_amended_witness :
    sort_threads [5, -3, 9] 1 = pySort [5, -3, 9] ∧
    sort_processes [5, -3, 9] 1 = pySort [5, -3, 9] ∧
    map_sort_threaded [5, -3, 9] 1 = [pySort [5, -3, 9]] ∧
    map_sort_process [5, -3, 9] 1 = [pySort [5, -3, 9]] ∧
    max_threads [5, -3, 9] 1 = pyMax [5, -3, 9] ∧
    max_threaded [5, -3, 9] 1 = pyMax [5, -3, 9] ∧
    max_process [5, -3, 9] 1 = max max_process_init (maxZ [5, -3, 9]) :=
  have h := single_worker_amended [5, -3, 9]
  ⟨h.1, h.2.1, h.2.2.1, h.2.2.2.1, h.2.2.2.2.1, h.2.2.2.2.2.1,
    h.2.2.2.2.2.2 (by decide) (by decide)⟩

/-- C9: reduction is order-insensitive — permuting the collection of sorted
per-worker chunks does not change the merged output, and permuting the
per-worker local maxima does not change the compare-and-update fold. -/
theorem reduce_order_insensitive (cs cs' : List (List ℤ)) (rs rs' : List (WithBot ℤ))
    (init : WithBot ℤ) (hs : ∀ c ∈ cs, List.Sorted (· ≤ ·) c)
    (hcs : cs.Perm cs') (hrs : rs.Perm rs') :
    reduce_merge_sorted cs = reduce_merge_sorted cs' ∧
    reduce_max init rs = reduce_max init rs' := by
  constructor
  · have hs' : ∀ c ∈ cs', List.Sorted (· ≤ ·) c := fun c hc => hs c (hcs.mem_iff.mpr hc)
    exact List.eq_of_perm_of_sorted
      ((reduce_merge_sorted_perm cs).trans
        (hcs.flatten.trans (reduce_merge_sorted_perm cs').symm))
      (reduce_merge_sorted_sorted cs hs) (reduce_merge_sorted_sorted cs' hs')
  · rw [reduce_max_eq_foldl, reduce_max_eq_foldl]
    exact foldl_max_perm hrs init

/-- C9 witness: swapping two sorted chunks and two worker maxima. -/
theorem reduce_order_insensitive_witness :
    reduce_merge_sorted [[1, 3], [2]] = reduce_merge_sorted [[2], [1, 3]] ∧
    reduce_max ⊥ [(3 : WithBot ℤ), ⊥] = reduce_max ⊥ [⊥, (3 : WithBot ℤ)] :=
  reduce_order_insensitive [[1, 3], [2]] [[2], [1, 3]]
    [(3 : WithBot ℤ), ⊥] [⊥, (3 : WithBot ℤ)] ⊥ (by decide) (by decide) (by decide)

/-- C10: the `-99999999` sentinel of src/max_value_aggregation/max_process.py
caps the result from below — for every nonempty 32-bit `data` and every
`k ≥ 1` the returned value is `max (max data) (-99999999)`; in particular,
when every element is below `-99999999` the sentinel itself is returned. -/
theorem max_process_sentinel_cap (data : List ℤ) (k : ℕ) (hne : data ≠ []) (hk : 1 ≤ k)
    (hfit : ∀ x ∈ data, -(2 ^ 31) ≤ x ∧ x < 2 ^ 31) :
    max_process data k = max (maxZ data) (-99999999) := by
  rw [max_process_eq data hne hk hfit, max_comm]
  rfl

/-- C10 witness: `data = [-100000001, -100000005]`, `k = 2`; both elements are
below the sentinel and the sentinel is returned. -/
theorem max_process_sentinel_cap_witness :
    max_process [-100000001, -100000005] 2 =
      max (maxZ [-100000001, -100000005]) (-99999999) ∧
    max_process [-100000001, -100000005] 2 = -99999999 :=
  ⟨max_process_sentinel_cap [-100000001, -100000005] 2 (by decide) (by decide) (by decide),
    by decide⟩

end MapReduce
